import Mathlib

/-!
Verification of the windowed-classification and scope-expansion core of
the cpp-classifier repository (`src/classify.py`), against its
natural-language specification.

The embedding models the text as a `List Char`, the per-topic classifier
("Oracle") as a boolean predicate on snippets, vote buffers as `List ℕ`,
masks as `List Bool`, and the vote ratio as a rational number `r`.
-/

set_option autoImplicit false

/-- Python slice `code[s:e]` (for `0 ≤ s ≤ e`). -/
def pySlice (code : List Char) (s e : ℕ) : List Char :=
  (code.drop s).take (e - s)

/-- Embedding of `buf[s:e] += 1` from `sliding_window_mask`
(`src/classify.py` line 76): add one to every entry whose absolute index
lies in `[s, e)`; `i` is the absolute index of the head of `buf`. -/
def bumpSlice (s e : ℕ) : ℕ → List ℕ → List ℕ
  | _, [] => []
  | i, v :: rest => (if s ≤ i ∧ i < e then v + 1 else v) :: bumpSlice s e (i + 1) rest

/-- One iteration of the loop in `sliding_window_mask`
(`src/classify.py` lines 73-76): compute `e = min(s + win, L)`, query the
oracle on `code[s:e]`, and on a true answer bump the slice `buf[s:e]`. -/
def voteStep (code : List Char) (win : ℕ) (oracle : List Char → Bool)
    (buf : List ℕ) (s : ℕ) : List ℕ :=
  let e := min (s + win) code.length
  if oracle (pySlice code s e) then bumpSlice s e 0 buf else buf

/-- The vote buffer computed by `sliding_window_mask`
(`src/classify.py` lines 71-76): start from `np.zeros(L)` and run
`voteStep` for every start offset `s` in `range(L)`. -/
def voteBuf (code : List Char) (win : ℕ) (oracle : List Char → Bool) : List ℕ :=
  (List.range code.length).foldl (voteStep code win oracle)
    (List.replicate code.length 0)

/-- Embedding of `sliding_window_mask` (`src/classify.py` lines 70-77):
the final thresholding `(buf >= (win / SIZE_RATIO)).astype(int)`, with the
vote divisor passed explicitly as the rational `r`. -/
def sliding_window_mask (code : List Char) (win : ℕ) (oracle : List Char → Bool)
    (r : ℚ) : List Bool :=
  (voteBuf code win oracle).map (fun (v : ℕ) => decide ((win : ℚ) / r ≤ (v : ℚ)))

/-- Specification-side predicate: window at start `s` covers index `i` and
the oracle answers true on that window. -/
def coversTrue (code : List Char) (win : ℕ) (oracle : List Char → Bool)
    (i s : ℕ) : Bool :=
  oracle (pySlice code s (min (s + win) code.length)) &&
    decide (s ≤ i) && decide (i < min (s + win) code.length)

/-- Specification-side vote count: the number of start offsets in `[0, L)`
whose window covers `i` with a true oracle answer. -/
def voteCount (code : List Char) (win : ℕ) (oracle : List Char → Bool)
    (i : ℕ) : ℕ :=
  ((List.range code.length).filter (coversTrue code win oracle i)).length

/-! ### Scope expansion (`bracket_matching_classification`, `src/classify.py` lines 79-109)

The Python code keeps a list `classifications` with entries `topic` or
`None`; since a single fixed topic is compared against, an entry is
modelled as the boolean `classifications[i] == topic`. -/

/-- Next value of `level` in the brace-scoped loop (`src/classify.py`
lines 100-101 and 104-105), where `h1` is the value of `highlight` after
the current character possibly activated it. -/
def braceNextLevel (level : ℤ) (h1 : Bool) (ch : Char) : ℤ :=
  if ch = '{' ∧ h1 = true then level + 1
  else if ch = '}' ∧ h1 = true then level - 1
  else level

/-- Next value of `highlight` in the brace-scoped loop (`src/classify.py`
lines 104-107): on `}` while active, deactivate when the decremented
level is at most zero. -/
def braceNextHighlight (level : ℤ) (h1 : Bool) (ch : Char) : Bool :=
  if ch = '}' ∧ h1 = true ∧ braceNextLevel level h1 ch ≤ 0 then false else h1

/-- Embedding of the brace-scoped branch of `bracket_matching_classification`
(`src/classify.py` lines 96-107). Each input pair is a character together
with its initial-mask bit; the output bit of a position is the value of
`highlight` there after possible activation by that position's bit. -/
def braceExpand : ℤ → Bool → List (Char × Bool) → List Bool
  | _, _, [] => []
  | level, highlight, (ch, b) :: rest =>
    (highlight || b) ::
      braceExpand (braceNextLevel level (highlight || b) ch)
        (braceNextHighlight level (highlight || b) ch) rest

/-- Embedding of the per-line marking step of the line-scoped branch
(`src/classify.py` lines 87-89 and 92-94): if any position of the line is
marked, mark the whole line, otherwise leave it unchanged. -/
def lineFlush (cur : List Bool) : List Bool :=
  if cur.any (fun b => b) then List.replicate cur.length true else cur

/-- Embedding of the line-scoped branch of `bracket_matching_classification`
(`src/classify.py` lines 84-94): scan the text, accumulating the current
line's bits in `cur`; at a newline flush the accumulated line (the newline
keeps its own bit), and at the end flush the trailing line. -/
def lineExpandAux : List Bool → List (Char × Bool) → List Bool
  | cur, [] => lineFlush cur
  | cur, (ch, b) :: rest =>
    if ch = '\n' then lineFlush cur ++ b :: lineExpandAux [] rest
    else lineExpandAux (cur ++ [b]) rest

/-- Embedding of `bracket_matching_classification` (`src/classify.py`
lines 79-109): topics `"virtual function"` and `"Namespaces"` use the
line-scoped branch, every other topic uses the brace-scoped branch. -/
def bracket_matching_classification (code : List Char) (topic : String)
    (init_mask : List Bool) : List Bool :=
  if topic = "virtual function" ∨ topic = "Namespaces" then
    lineExpandAux [] (code.zip init_mask)
  else
    braceExpand 0 false (code.zip init_mask)

/-- Oracle used in the spec's brace-scoped example: true exactly for
snippets that contain `"yy"` as a contiguous substring. -/
def hasYY : List Char → Bool
  | c1 :: c2 :: rest => (c1 = 'y' && c2 = 'y') || hasYY (c2 :: rest)
  | _ => false

/-- Modelled from the spec: `app.py` calls
`classify_code(code, size_ratio=..., custom_windows=...)` and imports
`_base_window_sizes`, but the `classify_code` in `src/classify.py` takes
only `code`; the override-merging variant is missing from `src/`. Per the
spec, "a non-positive override value is ignored and the default is
retained" — this is the effective window size for a topic with default
`d` and optional caller override `ov`. -/
def effectiveWindow (d : ℕ) (ov : Option ℤ) : ℕ :=
  match ov with
  | none => d
  | some v => if 0 < v then v.toNat else d

/-- Modelled from the spec: effective vote divisor for a call with default
`d` and optional caller override `ov` (see `effectiveWindow`); a
non-positive override is ignored and the default is retained. -/
def effectiveRat (d : ℚ) (ov : Option ℚ) : ℚ :=
  match ov with
  | none => d
  | some v => if 0 < v then v else d

/-- One topic's classification as performed by `classify_code`
(`src/classify.py` lines 170-171): the window classifier followed by
scope expansion. -/
def classify_topic (code : List Char) (topic : String) (win : ℕ)
    (oracle : List Char → Bool) (r : ℚ) : List Bool :=
  bracket_matching_classification code topic (sliding_window_mask code win oracle r)

/-- Modelled from the spec: one topic's classification under per-call
overrides of the window size and the vote divisor. -/
def classify_topic_with_overrides (code : List Char) (topic : String) (d : ℕ)
    (oracle : List Char → Bool) (dr : ℚ) (winOv : Option ℤ) (rOv : Option ℚ) : List Bool :=
  classify_topic code topic (effectiveWindow d winOv) oracle (effectiveRat dr rOv)

/-! ### Generic list helpers -/

theorem getD_map {α β : Type} (f : α → β) (d : β) (d0 : α) :
    ∀ (l : List α) (i : ℕ), i < l.length → (l.map f).getD i d = f (l.getD i d0) := by
  intro l
  induction l with
  | nil => intro i hi; simp at hi
  | cons a l ih =>
    intro i hi
    cases i with
    | zero => rfl
    | succ j => exact ih j (by simpa using hi)

theorem getD_append_lt {α : Type} (d : α) :
    ∀ (l1 l2 : List α) (i : ℕ), i < l1.length →
      (l1 ++ l2).getD i d = l1.getD i d := by
  intro l1
  induction l1 with
  | nil => intro l2 i hi; simp at hi
  | cons a l ih =>
    intro l2 i hi
    cases i with
    | zero => rfl
    | succ j => exact ih l2 j (by simpa using hi)

theorem getD_append_ge {α : Type} (d : α) :
    ∀ (l1 l2 : List α) (i : ℕ), l1.length ≤ i →
      (l1 ++ l2).getD i d = l2.getD (i - l1.length) d := by
  intro l1
  induction l1 with
  | nil => intro l2 i _; simp
  | cons a l ih =>
    intro l2 i hi
    cases i with
    | zero => simp at hi
    | succ j =>
      have : l.length ≤ j := by simpa using hi
      simpa [Nat.succ_sub_succ] using ih l2 j this

theorem getD_replicate {α : Type} (d b : α) :
    ∀ (n i : ℕ), i < n → (List.replicate n b).getD i d = b := by
  intro n
  induction n with
  | zero => intro i hi; omega
  | succ m ih =>
    intro i hi
    cases i with
    | zero => rfl
    | succ j => exact ih j (by omega)

theorem getD_true_lt : ∀ (l : List Bool) (i : ℕ), l.getD i false = true → i < l.length := by
  intro l
  induction l with
  | nil => intro i h; simp [List.getD] at h
  | cons a l ih =>
    intro i h
    cases i with
    | zero => simp
    | succ j => simpa using ih j h

theorem length_filter_mono {α : Type} (p q : α → Bool) :
    ∀ l : List α, (∀ a ∈ l, p a = true → q a = true) →
      (l.filter p).length ≤ (l.filter q).length := by
  intro l
  induction l with
  | nil => intro _; simp
  | cons a l ih =>
    intro h
    have hl : (l.filter p).length ≤ (l.filter q).length :=
      ih (fun x hx => h x (List.mem_cons_of_mem a hx))
    by_cases hp : p a = true
    · have hq : q a = true := h a (List.mem_cons_self a l) hp
      simp [List.filter_cons, hp, hq]; omega
    · have hp' : p a = false := by simpa using hp
      by_cases hq : q a = true
      · simp [List.filter_cons, hp', hq]; omega
      · have hq' : q a = false := by simpa using hq
        simpa [List.filter_cons, hp', hq'] using hl

/-! ### Vote buffer lemmas -/

theorem bumpSlice_length (s e : ℕ) :
    ∀ (i : ℕ) (buf : List ℕ), (bumpSlice s e i buf).length = buf.length := by
  intro i buf
  induction buf generalizing i with
  | nil => rfl
  | cons v rest ih => simp [bumpSlice, ih]

theorem bumpSlice_getD (s e : ℕ) :
    ∀ (buf : List ℕ) (i j : ℕ), j < buf.length →
      (bumpSlice s e i buf).getD j 0 =
        buf.getD j 0 + (if s ≤ i + j ∧ i + j < e then 1 else 0) := by
  intro buf
  induction buf with
  | nil => intro i j hj; simp at hj
  | cons v rest ih =>
    intro i j hj
    cases j with
    | zero =>
      simp only [bumpSlice, Nat.add_zero, List.getD_cons_zero]
      split <;> simp [*]
    | succ k =>
      have hk : k < rest.length := by simpa using hj
      have h2 := ih (i + 1) k hk
      have h3 : i + 1 + k = i + (k + 1) := by omega
      rw [h3] at h2
      simpa [bumpSlice] using h2

theorem voteStep_length (code : List Char) (win : ℕ) (oracle : List Char → Bool)
    (buf : List ℕ) (s : ℕ) : (voteStep code win oracle buf s).length = buf.length := by
  unfold voteStep
  by_cases h : oracle (pySlice code s (min (s + win) code.length)) = true
  · simp [h, bumpSlice_length]
  · simp [h]

theorem voteFold_length (code : List Char) (win : ℕ) (oracle : List Char → Bool) :
    ∀ (ss : List ℕ) (buf : List ℕ),
      (ss.foldl (voteStep code win oracle) buf).length = buf.length := by
  intro ss
  induction ss with
  | nil => intro buf; rfl
  | cons s ss ih =>
    intro buf
    simp [List.foldl_cons, ih, voteStep_length]

theorem voteFold_getD (code : List Char) (win : ℕ) (oracle : List Char → Bool) :
    ∀ (ss : List ℕ) (buf : List ℕ) (j : ℕ), j < buf.length →
      (ss.foldl (voteStep code win oracle) buf).getD j 0 =
        buf.getD j 0 + (ss.filter (coversTrue code win oracle j)).length := by
  intro ss
  induction ss with
  | nil => intro buf j _; simp
  | cons s ss ih =>
    intro buf j hj
    have hj' : j < (voteStep code win oracle buf s).length := by
      rw [voteStep_length]; exact hj
    rw [List.foldl_cons, ih (voteStep code win oracle buf s) j hj']
    have hstep : (voteStep code win oracle buf s).getD j 0 =
        buf.getD j 0 + (if coversTrue code win oracle j s = true then 1 else 0) := by
      unfold voteStep coversTrue
      by_cases ho : oracle (pySlice code s (min (s + win) code.length)) = true
      · rw [if_pos ho]
        rw [bumpSlice_getD s (min (s + win) code.length) buf 0 j hj]
        by_cases hc : s ≤ j ∧ j < min (s + win) code.length
        · simp [ho, hc.1, hc.2]
        · have h0 : ¬(s ≤ 0 + j ∧ 0 + j < min (s + win) code.length) := by
            simpa using hc
          rw [if_neg h0]
          have hcov : (oracle (pySlice code s (min (s + win) code.length)) &&
              decide (s ≤ j) && decide (j < min (s + win) code.length)) = false := by
            rcases Classical.em (s ≤ j) with h1 | h1
            · have h2 : ¬ j < min (s + win) code.length := fun h2 => hc ⟨h1, h2⟩
              simp [h2]
            · simp [h1]
          rw [hcov]
          simp
      · have ho' : oracle (pySlice code s (min (s + win) code.length)) = false := by
          simpa using ho
        simp [ho']
    rw [hstep]
    by_cases hc : coversTrue code win oracle j s = true
    · simp only [List.filter_cons, hc, if_true]
      simp only [List.length_cons]
      omega
    · have hc' : coversTrue code win oracle j s = false := by simpa using hc
      simp [List.filter_cons, hc']

theorem voteBuf_length (code : List Char) (win : ℕ) (oracle : List Char → Bool) :
    (voteBuf code win oracle).length = code.length := by
  unfold voteBuf
  rw [voteFold_length]
  exact List.length_replicate code.length 0

theorem getD_replicate_zero : ∀ (n j : ℕ), (List.replicate n (0 : ℕ)).getD j 0 = 0 := by
  intro n
  induction n with
  | zero => intro j; cases j <;> rfl
  | succ m ih =>
    intro j
    cases j with
    | zero => rfl
    | succ k => exact ih k

theorem voteBuf_getD (code : List Char) (win : ℕ) (oracle : List Char → Bool)
    (j : ℕ) (hj : j < code.length) :
    (voteBuf code win oracle).getD j 0 = voteCount code win oracle j := by
  unfold voteBuf voteCount
  rw [voteFold_getD code win oracle (List.range code.length)
    (List.replicate code.length 0) j (by simpa using hj)]
  rw [getD_replicate_zero]
  omega

theorem mask_length (code : List Char) (win : ℕ) (oracle : List Char → Bool) (r : ℚ) :
    (sliding_window_mask code win oracle r).length = code.length := by
  unfold sliding_window_mask
  rw [List.length_map]
  exact voteBuf_length code win oracle

theorem mask_getD (code : List Char) (win : ℕ) (oracle : List Char → Bool) (r : ℚ)
    (j : ℕ) (hj : j < code.length) :
    (sliding_window_mask code win oracle r).getD j false =
      decide ((win : ℚ) / r ≤ (voteCount code win oracle j : ℚ)) := by
  unfold sliding_window_mask
  rw [getD_map _ false 0 (voteBuf code win oracle) j
    (by rw [voteBuf_length]; exact hj)]
  rw [voteBuf_getD code win oracle j hj]

/-! ### Length lemmas for scope expansion -/

theorem braceExpand_length :
    ∀ (ps : List (Char × Bool)) (level : ℤ) (h : Bool),
      (braceExpand level h ps).length = ps.length := by
  intro ps
  induction ps with
  | nil => intro level h; rfl
  | cons p rest ih =>
    intro level h
    obtain ⟨ch, b⟩ := p
    simp [braceExpand, ih]

theorem lineFlush_length (cur : List Bool) : (lineFlush cur).length = cur.length := by
  unfold lineFlush
  split <;> simp

theorem lineExpandAux_length :
    ∀ (ps : List (Char × Bool)) (cur : List Bool),
      (lineExpandAux cur ps).length = cur.length + ps.length := by
  intro ps
  induction ps with
  | nil => intro cur; simp [lineExpandAux, lineFlush_length]
  | cons p rest ih =>
    intro cur
    obtain ⟨ch, b⟩ := p
    by_cases h : ch = '\n'
    · simp [lineExpandAux, h, lineFlush_length, ih]
    · simp [lineExpandAux, h, ih]
      omega

theorem bracket_length (code : List Char) (topic : String) (m : List Bool)
    (hm : m.length = code.length) :
    (bracket_matching_classification code topic m).length = code.length := by
  unfold bracket_matching_classification
  split
  · rw [lineExpandAux_length]
    simp [List.length_zip, hm]
  · rw [braceExpand_length]
    simp [List.length_zip, hm]

/-! ### Claim C1: window classifier algorithm and threshold -/

/-- C1: for every text, window size `win ≥ 1` and vote divisor `r > 0`,
the window classifier accumulates at each position `i` exactly one vote
per start offset `s` in `[0, L)` whose window `[s, min(s + win, L))` gets
a true oracle answer and contains `i`; and position `i` is set in the
initial mask if and only if `vote[i] ≥ win / r`. -/
theorem claim_C1_window_votes_and_threshold (code : List Char) (win : ℕ)
    (oracle : List Char → Bool) (r : ℚ) (i : ℕ)
    (hwin : 1 ≤ win) (hr : 0 < r) (hi : i < code.length) :
    (voteBuf code win oracle).getD i 0 = voteCount code win oracle i ∧
    ((sliding_window_mask code win oracle r).getD i false = true ↔
      (win : ℚ) / r ≤ (voteCount code win oracle i : ℚ)) := by
  refine ⟨voteBuf_getD code win oracle i hi, ?_⟩
  rw [mask_getD code win oracle r i hi]
  simp

/-- Witness for C1 at text `['a']`, window 1, an always-true oracle,
divisor 1, position 0. -/
theorem claim_C1_witness :
    (voteBuf ['a'] 1 (fun _ => true)).getD 0 0 = voteCount ['a'] 1 (fun _ => true) 0 ∧
    ((sliding_window_mask ['a'] 1 (fun _ => true) 1).getD 0 false = true ↔
      ((1 : ℕ) : ℚ) / 1 ≤ (voteCount ['a'] 1 (fun _ => true) 0 : ℚ)) := by
  exact claim_C1_window_votes_and_threshold ['a'] 1 (fun _ => true) 1 0
    (by decide) (by norm_num) (by decide)

/-! ### Claim C8: monotonicity in the vote divisor -/

/-- C8: for fixed text, window size and oracle answers, if `0 < r1 < r2`
then every position set in the initial mask computed with divisor `r1` is
also set in the mask computed with divisor `r2`. -/
theorem claim_C8_divisor_monotone (code : List Char) (win : ℕ)
    (oracle : List Char → Bool) (r1 r2 : ℚ) (i : ℕ)
    (h1 : 0 < r1) (h12 : r1 < r2)
    (hset : (sliding_window_mask code win oracle r1).getD i false = true) :
    (sliding_window_mask code win oracle r2).getD i false = true := by
  have hi : i < code.length := by
    have h := getD_true_lt (sliding_window_mask code win oracle r1) i hset
    rwa [mask_length] at h
  rw [mask_getD code win oracle r1 i hi] at hset
  rw [mask_getD code win oracle r2 i hi]
  simp only [decide_eq_true_eq] at hset ⊢
  have h2 : (0 : ℚ) < r2 := lt_trans h1 h12
  have hdd : (win : ℚ) / r2 ≤ (win : ℚ) / r1 := by
    rw [div_le_div_iff h2 h1]
    exact mul_le_mul_of_nonneg_left h12.le (by positivity)
  exact le_trans hdd hset

/-- Witness for C8 at text `['a']`, window 1, an always-true oracle,
divisors 1 and 2, position 0. -/
theorem claim_C8_witness :
    (sliding_window_mask ['a'] 1 (fun _ => true) 2).getD 0 false = true := by
  apply claim_C8_divisor_monotone ['a'] 1 (fun _ => true) 1 2 0 (by norm_num) (by norm_num)
  have hv : voteBuf ['a'] 1 (fun _ => true) = [1] := by decide
  simp only [sliding_window_mask, hv, List.map, List.getD_cons_zero, decide_eq_true_eq]
  norm_num

/-! ### Claim C9: mask lengths -/

/-- C9: for every input text (including the empty text) and every topic,
the initial mask and the final mask both have length equal to the length
of the text. -/
theorem claim_C9_mask_lengths (code : List Char) (topic : String) (win : ℕ)
    (oracle : List Char → Bool) (r : ℚ) (m : List Bool)
    (hm : m.length = code.length) :
    (sliding_window_mask code win oracle r).length = code.length ∧
    (bracket_matching_classification code topic m).length = code.length :=
  ⟨mask_length code win oracle r, bracket_length code topic m hm⟩

/-- Witness for C9 on the empty text: both masks have length zero. -/
theorem claim_C9_witness :
    (sliding_window_mask [] 1 (fun _ => true) 1).length = ([] : List Char).length ∧
    (bracket_matching_classification [] "Classes" []).length = ([] : List Char).length :=
  claim_C9_mask_lengths [] "Classes" 1 (fun _ => true) 1 [] rfl

/-! ### Claim C4: non-positive overrides are ignored -/

/-- C4: a non-positive per-call override of a topic's window size or of
the vote divisor is silently rejected and the configured default is used
for that topic's classification (the result is the same list, so no error
is surfaced). -/
theorem claim_C4_nonpositive_overrides_ignored (code : List Char) (topic : String)
    (d : ℕ) (oracle : List Char → Bool) (dr : ℚ) (w : ℤ) (rq : ℚ)
    (hw : w ≤ 0) (hrq : rq ≤ 0) :
    classify_topic_with_overrides code topic d oracle dr (some w) (some rq) =
      classify_topic code topic d oracle dr := by
  have h1 : effectiveWindow d (some w) = d := by
    simp only [effectiveWindow]
    rw [if_neg (by omega)]
  have h2 : effectiveRat dr (some rq) = dr := by
    simp only [effectiveRat]
    rw [if_neg (not_lt.mpr hrq)]
  unfold classify_topic_with_overrides
  rw [h1, h2]

/-- Witness for C4 with overrides `-1` for both the window and the divisor. -/
theorem claim_C4_witness :
    classify_topic_with_overrides ['a'] "Classes" 2 (fun _ => true) 1 (some (-1)) (some (-1)) =
      classify_topic ['a'] "Classes" 2 (fun _ => true) 1 :=
  claim_C4_nonpositive_overrides_ignored ['a'] "Classes" 2 (fun _ => true) 1 (-1) (-1)
    (by norm_num) (by norm_num)

/-! ### Claim C10: vote bound and unreachable positions -/

theorem voteCount_le (code : List Char) (win : ℕ) (oracle : List Char → Bool)
    (i : ℕ) : voteCount code win oracle i ≤ min (i + 1) win := by
  classical
  unfold voteCount
  set l := (List.range code.length).filter (coversTrue code win oracle i) with hl
  have hsub : l.toFinset ⊆ Finset.Ico (i + 1 - win) (i + 1) := by
    intro s hs
    rw [List.mem_toFinset, hl, List.mem_filter] at hs
    obtain ⟨hrange, hcov⟩ := hs
    simp only [coversTrue, Bool.and_eq_true, decide_eq_true_eq] at hcov
    obtain ⟨⟨ho, hsi⟩, hic⟩ := hcov
    have h3 : i < s + win := lt_of_lt_of_le hic (min_le_left _ _)
    rw [Finset.mem_Ico]
    omega
  have hnd : l.Nodup := (List.nodup_range code.length).filter _
  have hcard : l.toFinset.card = l.length := List.toFinset_card_of_nodup hnd
  have hle := Finset.card_le_card hsub
  rw [hcard, Nat.card_Ico] at hle
  omega

/-- C10: the vote count of position `i` is at most `min (i + 1) win`,
because only windows starting in `[max 0 (i - win + 1), i]` cover `i`;
consequently, whenever `i + 1 < win / r`, position `i` is not set in the
initial mask regardless of the oracle's answers. -/
theorem claim_C10_vote_bound (code : List Char) (win : ℕ)
    (oracle : List Char → Bool) (r : ℚ) (i : ℕ)
    (hi : i < code.length) (hr : 0 < r) :
    voteCount code win oracle i ≤ min (i + 1) win ∧
    ((i : ℚ) + 1 < (win : ℚ) / r →
      (sliding_window_mask code win oracle r).getD i false = false) := by
  refine ⟨voteCount_le code win oracle i, ?_⟩
  intro hlt
  rw [mask_getD code win oracle r i hi]
  simp only [decide_eq_false_iff_not]
  intro hle
  have hb : voteCount code win oracle i ≤ i + 1 :=
    le_trans (voteCount_le code win oracle i) (min_le_left _ _)
  have hbq : (voteCount code win oracle i : ℚ) ≤ (i : ℚ) + 1 := by exact_mod_cast hb
  linarith

/-- Witness for C10 at text `['a', 'b']`, window 4, an always-true oracle,
divisor 1, position 0: the threshold is 4, so position 0 stays unset. -/
theorem claim_C10_witness :
    voteCount ['a', 'b'] 4 (fun _ => true) 0 ≤ min (0 + 1) 4 ∧
    (sliding_window_mask ['a', 'b'] 4 (fun _ => true) 1).getD 0 false = false := by
  have h := claim_C10_vote_bound ['a', 'b'] 4 (fun _ => true) 1 0 (by decide) (by norm_num)
  exact ⟨h.1, h.2 (by norm_num)⟩

/-! ### Claim C2: the spec's brace-scoped example -/

/-- C2, counterexample: on text `"xx{yy}zz"`, window 2, divisor 1 and the
contains-"yy" oracle, the code does not produce a final mask covering
exactly indices 2 through 5. The single positive window starts at 3, so
positions 3 and 4 get one vote each, below the threshold `2 / 1 = 2`. -/
theorem claim_C2_counterexample :
    bracket_matching_classification ("xx{yy}zz".toList) "templates"
        (sliding_window_mask ("xx{yy}zz".toList) 2 hasYY 1) ≠
      [false, false, true, true, true, true, false, false] := by
  have hv : voteBuf ("xx{yy}zz".toList) 2 hasYY = [0, 0, 0, 1, 1, 0, 0, 0] := by decide
  have hm : sliding_window_mask ("xx{yy}zz".toList) 2 hasYY 1 = List.replicate 8 false := by
    simp only [sliding_window_mask, hv, List.map]
    norm_num [List.replicate]
  rw [hm]
  decide

/-- C2, amended: on the example input the votes of positions 3 and 4 (one
each) are below the threshold `2 / 1 = 2`, so the initial mask is empty
and the final mask is all-false. -/
theorem claim_C2_amended_all_false :
    bracket_matching_classification ("xx{yy}zz".toList) "templates"
        (sliding_window_mask ("xx{yy}zz".toList) 2 hasYY 1) =
      List.replicate 8 false := by
  have hv : voteBuf ("xx{yy}zz".toList) 2 hasYY = [0, 0, 0, 1, 1, 0, 0, 0] := by decide
  have hm : sliding_window_mask ("xx{yy}zz".toList) 2 hasYY 1 = List.replicate 8 false := by
    simp only [sliding_window_mask, hv, List.map]
    norm_num [List.replicate]
  rw [hm]
  decide

/-! ### Claim C3: behaviour when the window exceeds the text length -/

/-- C3, counterexample: with text `['a', 'b']` (length 2), window 3 and
divisor 3, an oracle that is true only on the suffix `['b']` gives the
initial mask `[false, true]`, which is neither all-true nor all-false —
the windows do not collapse to a single window and the positions do not
receive the same vote. -/
theorem claim_C3_counterexample :
    (['a', 'b'] : List Char).length < 3 ∧
    sliding_window_mask ['a', 'b'] 3 (fun l => decide (l = ['b'])) 3 = [false, true] ∧
    ¬ (sliding_window_mask ['a', 'b'] 3 (fun l => decide (l = ['b'])) 3 =
          List.replicate 2 true ∨
        sliding_window_mask ['a', 'b'] 3 (fun l => decide (l = ['b'])) 3 =
          List.replicate 2 false) := by
  have hv : voteBuf ['a', 'b'] 3 (fun l => decide (l = ['b'])) = [0, 1] := by decide
  have hm : sliding_window_mask ['a', 'b'] 3 (fun l => decide (l = ['b'])) 3 =
      [false, true] := by
    simp only [sliding_window_mask, hv, List.map]
    norm_num
  refine ⟨by decide, hm, ?_⟩
  rw [hm]
  decide

/-- C3, amended: when `win > L` every window's end offset collapses to
`L`, so the queried snippet for start `s` is the whole suffix
`text[s:]`; the vote counts are nondecreasing along the text, so the
initial mask is upward closed (all-false up to some point, then
all-true) — but it need not be constant. -/
theorem claim_C3_amended_suffix_windows (code : List Char) (win : ℕ)
    (oracle : List Char → Bool) (r : ℚ)
    (hwin : code.length < win) (hr : 0 < r) :
    (∀ s, s < code.length →
      pySlice code s (min (s + win) code.length) = code.drop s) ∧
    (∀ i j, i ≤ j → j < code.length →
      (sliding_window_mask code win oracle r).getD i false = true →
      (sliding_window_mask code win oracle r).getD j false = true) := by
  constructor
  · intro s hs
    have hmin : min (s + win) code.length = code.length := by omega
    rw [hmin]
    unfold pySlice
    have hlen : (code.drop s).length = code.length - s := List.length_drop s code
    rw [← hlen, List.take_length]
  · intro i j hij hj hset
    have hi : i < code.length := lt_of_le_of_lt hij hj
    rw [mask_getD code win oracle r i hi] at hset
    rw [mask_getD code win oracle r j hj]
    simp only [decide_eq_true_eq] at hset ⊢
    have hmono : voteCount code win oracle i ≤ voteCount code win oracle j := by
      unfold voteCount
      apply length_filter_mono
      intro s hs hcov
      have hsr : s < code.length := List.mem_range.mp hs
      simp only [coversTrue, Bool.and_eq_true, decide_eq_true_eq] at hcov ⊢
      obtain ⟨⟨ho, hsi⟩, hic⟩ := hcov
      exact ⟨⟨ho, le_trans hsi hij⟩, by omega⟩
    exact le_trans hset (by exact_mod_cast hmono)

/-- Witness for the amended C3 at text `['a', 'b']`, window 3, an
always-true oracle and divisor 3. -/
theorem claim_C3_amended_witness :
    (sliding_window_mask ['a', 'b'] 3 (fun _ => true) 3).getD 1 false = true := by
  apply (claim_C3_amended_suffix_windows ['a', 'b'] 3 (fun _ => true) 3
    (by decide) (by norm_num)).2 0 1 (by decide) (by decide)
  have hv : voteBuf ['a', 'b'] 3 (fun _ => true) = [1, 2] := by decide
  simp only [sliding_window_mask, hv, List.map, List.getD_cons_zero, decide_eq_true_eq]
  norm_num

/-! ### Claim C5: expansion is monotone -/

theorem braceExpand_mono :
    ∀ (ps : List (Char × Bool)) (level : ℤ) (h : Bool) (i : ℕ),
      (ps.map Prod.snd).getD i false = true →
      (braceExpand level h ps).getD i false = true := by
  intro ps
  induction ps with
  | nil => intro level h i hset; simp [List.getD] at hset
  | cons p rest ih =>
    intro level h i hset
    obtain ⟨ch, b⟩ := p
    cases i with
    | zero =>
      simp only [List.map, List.getD_cons_zero] at hset
      simp [braceExpand, hset]
    | succ k =>
      simp only [List.map, List.getD_cons_succ] at hset
      simp only [braceExpand, List.getD_cons_succ]
      exact ih _ _ k hset

theorem lineFlush_mono (cur : List Bool) (i : ℕ)
    (hset : cur.getD i false = true) : (lineFlush cur).getD i false = true := by
  have hi : i < cur.length := getD_true_lt cur i hset
  unfold lineFlush
  by_cases hany : cur.any (fun b => b) = true
  · rw [if_pos hany]
    exact getD_replicate false true cur.length i hi
  · rw [if_neg hany]
    exact hset

theorem lineExpandAux_mono :
    ∀ (ps : List (Char × Bool)) (cur : List Bool) (i : ℕ),
      (cur ++ ps.map Prod.snd).getD i false = true →
      (lineExpandAux cur ps).getD i false = true := by
  intro ps
  induction ps with
  | nil =>
    intro cur i hset
    rw [List.map_nil, List.append_nil] at hset
    exact lineFlush_mono cur i hset
  | cons p rest ih =>
    intro cur i hset
    obtain ⟨ch, b⟩ := p
    by_cases hch : ch = '\n'
    · simp only [lineExpandAux, hch, if_true]
      rcases Nat.lt_trichotomy i cur.length with hlt | heq | hgt
      · rw [getD_append_lt false cur _ i hlt] at hset
        rw [getD_append_lt false (lineFlush cur) _ i (by rw [lineFlush_length]; exact hlt)]
        exact lineFlush_mono cur i hset
      · rw [getD_append_ge false cur _ i (le_of_eq heq.symm)] at hset
        rw [heq] at hset
        rw [Nat.sub_self] at hset
        simp only [List.map, List.getD_cons_zero] at hset
        rw [getD_append_ge false (lineFlush cur) _ i (by rw [lineFlush_length]; omega)]
        rw [lineFlush_length, heq, Nat.sub_self]
        simpa using hset
      · rw [getD_append_ge false cur _ i (by omega)] at hset
        rw [getD_append_ge false (lineFlush cur) _ i (by rw [lineFlush_length]; omega)]
        rw [lineFlush_length]
        have hpos : 0 < i - cur.length := by omega
        obtain ⟨k, hk⟩ : ∃ k, i - cur.length = k + 1 := ⟨i - cur.length - 1, by omega⟩
        rw [hk] at hset ⊢
        simp only [List.map, List.getD_cons_succ] at hset ⊢
        have := ih [] k (by simpa using hset)
        simpa using this
    · simp only [lineExpandAux, hch, if_false]
      apply ih (cur ++ [b]) i
      rw [List.append_assoc]
      simpa using hset

/-- C5: for every text, every topic (either expansion strategy) and every
initial mask of matching length, every index set in the initial mask is
also set in the final mask produced by scope expansion. -/
theorem claim_C5_expansion_monotone (code : List Char) (topic : String)
    (m : List Bool) (hm : m.length = code.length) (i : ℕ)
    (hset : m.getD i false = true) :
    (bracket_matching_classification code topic m).getD i false = true := by
  have hsnd : (code.zip m).map Prod.snd = m :=
    List.map_snd_zip code m (le_of_eq hm)
  unfold bracket_matching_classification
  split
  · apply lineExpandAux_mono (code.zip m) [] i
    rw [List.nil_append, hsnd]
    exact hset
  · apply braceExpand_mono (code.zip m) 0 false i
    rw [hsnd]
    exact hset

/-- Witness for C5 at text `['a']`, topic `"Classes"`, mask `[true]`. -/
theorem claim_C5_witness :
    (bracket_matching_classification ['a'] "Classes" [true]).getD 0 false = true :=
  claim_C5_expansion_monotone ['a'] "Classes" [true] rfl 0 rfl

/-! ### Claim C7: the brace-scoped state machine -/

/-- C7: one step of the brace-scoped scan. An initially-masked character
while inactive sets `active`; the emitted bit is the post-activation
`active` value, so while active every character (brace characters
included) is marked; a brace `{` while active increments the depth and
does not deactivate; a brace `}` while active decrements the depth and
deactivates exactly when the decremented depth is at most zero; and any
character encountered while inactive (including braces) leaves the state
unchanged — depth is never tracked while inactive. -/
theorem claim_C7_brace_step (level : ℤ) (highlight : Bool) (ch : Char) (b : Bool)
    (rest : List (Char × Bool)) :
    (braceExpand level highlight ((ch, b) :: rest)).head? = some (highlight || b) ∧
    (ch = '{' → (highlight || b) = true →
      braceExpand level highlight ((ch, b) :: rest) =
        true :: braceExpand (level + 1) true rest) ∧
    (ch = '}' → (highlight || b) = true →
      braceExpand level highlight ((ch, b) :: rest) =
        true :: braceExpand (level - 1)
          (if level - 1 ≤ 0 then false else true) rest) ∧
    ((highlight || b) = false →
      braceExpand level highlight ((ch, b) :: rest) =
        false :: braceExpand level highlight rest) ∧
    (ch ≠ '{' → ch ≠ '}' →
      braceExpand level highlight ((ch, b) :: rest) =
        (highlight || b) :: braceExpand level (highlight || b) rest) := by
  refine ⟨rfl, ?_, ?_, ?_, ?_⟩
  · intro hch hact
    subst hch
    rw [braceExpand, hact]
    have hlvl : braceNextLevel level true '{' = level + 1 := by
      unfold braceNextLevel
      rw [if_pos ⟨rfl, rfl⟩]
    have hhl : braceNextHighlight level true '{' = true := by
      unfold braceNextHighlight
      rw [if_neg]
      intro hcon
      exact absurd hcon.1 (by decide)
    rw [hlvl, hhl]
  · intro hch hact
    subst hch
    rw [braceExpand, hact]
    have hlvl : braceNextLevel level true '}' = level - 1 := by
      unfold braceNextLevel
      rw [if_neg (fun hcon => absurd hcon.1 (by decide)), if_pos ⟨rfl, rfl⟩]
    have hhl : braceNextHighlight level true '}' =
        if level - 1 ≤ 0 then false else true := by
      unfold braceNextHighlight
      rw [hlvl]
      by_cases hle : level - 1 ≤ 0
      · rw [if_pos ⟨rfl, rfl, hle⟩, if_pos hle]
      · rw [if_neg (fun hcon => hle hcon.2.2), if_neg hle]
    rw [hlvl, hhl]
  · intro hact
    rw [braceExpand, hact]
    have hb : b = false := by
      cases b
      · rfl
      · simp at hact
    have hh : highlight = false := by
      cases highlight
      · rfl
      · simp at hact
    have hlvl : braceNextLevel level false ch = level := by
      unfold braceNextLevel
      rw [if_neg (fun hcon => absurd hcon.2 (by decide)),
        if_neg (fun hcon => absurd hcon.2 (by decide))]
    have hhl : braceNextHighlight level false ch = false := by
      unfold braceNextHighlight
      rw [if_neg (fun hcon => absurd hcon.2.1 (by decide))]
    rw [hlvl, hhl, hh]
  · intro hch1 hch2
    rw [braceExpand]
    have hlvl : braceNextLevel level (highlight || b) ch = level := by
      unfold braceNextLevel
      rw [if_neg (fun hcon => hch1 hcon.1), if_neg (fun hcon => hch2 hcon.1)]
    have hhl : braceNextHighlight level (highlight || b) ch = (highlight || b) := by
      unfold braceNextHighlight
      rw [if_neg (fun hcon => hch2 hcon.1)]
    rw [hlvl, hhl]

/-- Witness for C7: a stray `}` while inactive is a no-op, and a masked
`{` activates and increments the depth. -/
theorem claim_C7_witness :
    braceExpand 0 false [('}', false)] = [false] ∧
    braceExpand 0 false [('{', true)] = [true] := by
  constructor
  · have h := (claim_C7_brace_step 0 false '}' false []).2.2.2.1 rfl
    rw [h]
    rfl
  · have h := (claim_C7_brace_step 0 false '{' true []).2.1 rfl rfl
    rw [h]
    rfl

/-! ### Claim C6: expansion is idempotent -/

theorem braceExpand_idem :
    ∀ (ps : List (Char × Bool)) (level : ℤ) (h : Bool),
      braceExpand level h ((ps.map Prod.fst).zip (braceExpand level h ps)) =
        braceExpand level h ps := by
  intro ps
  induction ps with
  | nil => intro level h; rfl
  | cons p rest ih =>
    intro level h
    obtain ⟨ch, b⟩ := p
    have hor : (h || (h || b)) = (h || b) := by cases h <;> simp
    simp only [List.map_cons, braceExpand, List.zip_cons_cons, hor]
    exact congrArg (List.cons (h || b))
      (ih (braceNextLevel level (h || b) ch) (braceNextHighlight level (h || b) ch))

theorem lineFlush_idem (cur : List Bool) : lineFlush (lineFlush cur) = lineFlush cur := by
  cases cur with
  | nil => rfl
  | cons a l =>
    by_cases hany : (a :: l).any (fun b => b) = true
    · have h1 : lineFlush (a :: l) = List.replicate (a :: l).length true := by
        unfold lineFlush
        rw [if_pos hany]
      rw [h1]
      have hrep : (List.replicate (a :: l).length true).any (fun b => b) = true := by
        rw [List.any_eq_true]
        exact ⟨true, List.mem_replicate.mpr ⟨by simp, rfl⟩, rfl⟩
      unfold lineFlush
      rw [if_pos hrep, List.length_replicate]
    · have h1 : lineFlush (a :: l) = a :: l := by
        unfold lineFlush
        rw [if_neg hany]
      rw [h1, h1]

theorem lineExpandAux_no_newline :
    ∀ (ps : List (Char × Bool)) (cur : List Bool),
      (∀ p ∈ ps, ¬ p.1 = '\n') →
      lineExpandAux cur ps = lineFlush (cur ++ ps.map Prod.snd) := by
  intro ps
  induction ps with
  | nil => intro cur _; simp [lineExpandAux]
  | cons p rest ih =>
    intro cur hnl
    obtain ⟨ch, b⟩ := p
    have hch : ¬ ch = '\n' := hnl (ch, b) (List.mem_cons_self _ _)
    simp only [lineExpandAux, hch, if_false]
    rw [ih (cur ++ [b]) (fun q hq => hnl q (List.mem_cons_of_mem _ hq))]
    rw [List.append_assoc]
    rfl

theorem lineExpandAux_split :
    ∀ (seg : List (Char × Bool)) (b : Bool) (rest : List (Char × Bool)) (cur : List Bool),
      (∀ p ∈ seg, ¬ p.1 = '\n') →
      lineExpandAux cur (seg ++ ('\n', b) :: rest) =
        lineFlush (cur ++ seg.map Prod.snd) ++ b :: lineExpandAux [] rest := by
  intro seg
  induction seg with
  | nil =>
    intro b rest cur _
    simp [lineExpandAux]
  | cons p seg ih =>
    intro b rest cur hnl
    obtain ⟨ch, b1⟩ := p
    have hch : ¬ ch = '\n' := hnl (ch, b1) (List.mem_cons_self _ _)
    simp only [List.cons_append, lineExpandAux, hch, if_false, List.append_eq]
    rw [ih b rest (cur ++ [b1]) (fun q hq => hnl q (List.mem_cons_of_mem _ hq))]
    rw [List.append_assoc]
    rfl

theorem newline_split :
    ∀ ps : List (Char × Bool),
      (∀ p ∈ ps, ¬ p.1 = '\n') ∨
      ∃ seg b rest, ps = seg ++ ('\n', b) :: rest ∧ ∀ p ∈ seg, ¬ p.1 = '\n' := by
  intro ps
  induction ps with
  | nil =>
    left
    intro p hp
    exact absurd hp (List.not_mem_nil p)
  | cons p rest ih =>
    obtain ⟨ch, b⟩ := p
    by_cases hch : ch = '\n'
    · right
      refine ⟨[], b, rest, ?_, ?_⟩
      · rw [hch]
        rfl
      · intro q hq
        exact absurd hq (List.not_mem_nil q)
    · rcases ih with hnl | ⟨seg, b1, rest1, heq, hsegnl⟩
      · left
        intro q hq
        rcases List.mem_cons.mp hq with h | h
        · rw [h]
          exact hch
        · exact hnl q h
      · right
        refine ⟨(ch, b) :: seg, b1, rest1, ?_, ?_⟩
        · rw [heq]
          rfl
        · intro q hq
          rcases List.mem_cons.mp hq with h | h
          · rw [h]
            exact hch
          · exact hsegnl q h

theorem lineExpand_idem_aux :
    ∀ (n : ℕ) (ps : List (Char × Bool)), ps.length ≤ n →
      lineExpandAux [] ((ps.map Prod.fst).zip (lineExpandAux [] ps)) =
        lineExpandAux [] ps := by
  intro n
  induction n with
  | zero =>
    intro ps hps
    have hnil : ps = [] := List.length_eq_zero.mp (Nat.le_zero.mp hps)
    subst hnil
    rfl
  | succ n ih =>
    intro ps hps
    rcases newline_split ps with hnl | ⟨seg, b, rest, heq, hsegnl⟩
    · have hout : lineExpandAux [] ps = lineFlush (ps.map Prod.snd) := by
        rw [lineExpandAux_no_newline ps [] hnl]
        rfl
      rw [hout]
      have hznl : ∀ q ∈ (ps.map Prod.fst).zip (lineFlush (ps.map Prod.snd)),
          ¬ q.1 = '\n' := by
        intro q hq
        obtain ⟨c, bb⟩ := q
        have hc : c ∈ ps.map Prod.fst := (List.mem_zip hq).1
        obtain ⟨p, hp, hpc⟩ := List.mem_map.mp hc
        rw [← hpc]
        exact hnl p hp
      rw [lineExpandAux_no_newline _ [] hznl, List.nil_append]
      have hsnd : ((ps.map Prod.fst).zip (lineFlush (ps.map Prod.snd))).map Prod.snd =
          lineFlush (ps.map Prod.snd) :=
        List.map_snd_zip _ _
          (le_of_eq (by rw [lineFlush_length, List.length_map, List.length_map]))
      rw [hsnd, lineFlush_idem]
    · subst heq
      have hrest : rest.length ≤ n := by
        rw [List.length_append, List.length_cons] at hps
        omega
      have hout : lineExpandAux [] (seg ++ ('\n', b) :: rest) =
          lineFlush (seg.map Prod.snd) ++ b :: lineExpandAux [] rest := by
        rw [lineExpandAux_split seg b rest [] hsegnl]
        rfl
      rw [hout]
      have hmapfst : (seg ++ ('\n', b) :: rest).map Prod.fst =
          seg.map Prod.fst ++ '\n' :: rest.map Prod.fst := by
        simp
      rw [hmapfst]
      have hlen1 : (seg.map Prod.fst).length = (lineFlush (seg.map Prod.snd)).length := by
        rw [lineFlush_length, List.length_map, List.length_map]
      rw [List.zip_append hlen1, List.zip_cons_cons]
      have hznl : ∀ q ∈ (seg.map Prod.fst).zip (lineFlush (seg.map Prod.snd)),
          ¬ q.1 = '\n' := by
        intro q hq
        obtain ⟨c, bb⟩ := q
        have hc : c ∈ seg.map Prod.fst := (List.mem_zip hq).1
        obtain ⟨p, hp, hpc⟩ := List.mem_map.mp hc
        rw [← hpc]
        exact hsegnl p hp
      rw [lineExpandAux_split _ b _ [] hznl, List.nil_append]
      have hsnd : ((seg.map Prod.fst).zip (lineFlush (seg.map Prod.snd))).map Prod.snd =
          lineFlush (seg.map Prod.snd) :=
        List.map_snd_zip _ _ (le_of_eq hlen1.symm)
      rw [hsnd, lineFlush_idem, ih rest hrest]

/-- C6: scope expansion is idempotent for both strategies: re-applying
expansion to an already-expanded mask yields the same mask. -/
theorem claim_C6_expansion_idempotent (code : List Char) (topic : String)
    (m : List Bool) (hm : m.length = code.length) :
    bracket_matching_classification code topic
        (bracket_matching_classification code topic m) =
      bracket_matching_classification code topic m := by
  have hfst : (code.zip m).map Prod.fst = code :=
    List.map_fst_zip code m (le_of_eq hm.symm)
  unfold bracket_matching_classification
  by_cases hC : topic = "virtual function" ∨ topic = "Namespaces"
  · simp only [if_pos hC]
    have h := lineExpand_idem_aux (code.zip m).length (code.zip m) le_rfl
    rwa [hfst] at h
  · simp only [if_neg hC]
    have h := braceExpand_idem (code.zip m) 0 false
    rwa [hfst] at h

/-- Witness for C6 at text `['{', 'a', '}']`, topic `"templates"`, mask
`[false, true, false]`. -/
theorem claim_C6_witness :
    bracket_matching_classification ['{', 'a', '}'] "templates"
        (bracket_matching_classification ['{', 'a', '}'] "templates"
          [false, true, false]) =
      bracket_matching_classification ['{', 'a', '}'] "templates"
        [false, true, false] :=
  claim_C6_expansion_idempotent ['{', 'a', '}'] "templates" [false, true, false] rfl
